import Mathlib

/-!
Verification of the hierarchical drill-down crosstab engine
(src/hierarchical-crosstab.js) against its natural-language specification.

The source is a single IIFE operating on mutable module-level state
(`hierarchyFields`, `measureFields`, `fullDataTree`, `expandedNodes`).
We shallow-embed it functionally: JS objects used as string-keyed maps
become association structures, mutation becomes explicit state passing,
dynamic cell values become the `JSVal` variant type, and DOM emission in
`renderTreeLevel` becomes an accumulated list of emitted row descriptors.
-/

set_option maxHeartbeats 1000000

namespace Crosstab

/-- Dynamic cell values as delivered by the data source adapter
(the JS `row[i].value`): null, undefined, strings, numbers. -/
inductive JSVal where
  | null
  | undef
  | str (s : String)
  | num (n : Int)
deriving DecidableEq

/-- A classified field as pushed by `identifyFieldTypes`: its column
`index` and its `fieldName`. -/
structure Field where
  index : Nat
  fieldName : String
deriving DecidableEq

/-- A worksheet column: `index`, `fieldName` and the Tableau `dataType`
tag, kept as the literal string the source compares against. -/
structure Column where
  index : Nat
  fieldName : String
  dataType : String
deriving DecidableEq

/-- Row cell access `row[i].value`; an out-of-range index behaves as
undefined. -/
def cellAt (row : List JSVal) (i : Nat) : JSVal :=
  row.getD i JSVal.undef

/-- The tree builder's null test:
`value === null || value === undefined || value === '%null%'`. -/
def isNullValue : JSVal → Bool
  | JSVal.null => true
  | JSVal.undef => true
  | JSVal.str s => s == "%null%"
  | JSVal.num _ => false

/-- The measure-skip test of the tree builder, i.e. the negation of
`measureValue !== null && measureValue !== undefined`. -/
def isMissing : JSVal → Bool
  | JSVal.null => true
  | JSVal.undef => true
  | JSVal.str _ => false
  | JSVal.num _ => false

/-- JS object-key coercion `String(value)`, applied when a cell value is
used to index `currentLevel[value]`. After the null test only strings
and numbers reach this point. -/
def keyOf : JSVal → String
  | JSVal.str s => s
  | JSVal.num n => toString n
  | JSVal.null => "null"
  | JSVal.undef => "undefined"

mutual
/-- A node of `fullDataTree`: the object literal created at line 124 of
the source, with fields `name`, `level`, `measures`, `children`,
`hasChildren`. -/
inductive TreeNode where
  | mk (name : String) (level : Nat) (measures : List (String × JSVal))
      (children : Tree) (hasChildren : Bool)
/-- A level of the tree: a JS object used as a string-keyed map from
child key to node (`const tree = {}` and each `children` object). -/
inductive Tree where
  | nil
  | cons (key : String) (node : TreeNode) (rest : Tree)
end

def TreeNode.name : TreeNode → String
  | TreeNode.mk n _ _ _ _ => n

def TreeNode.level : TreeNode → Nat
  | TreeNode.mk _ l _ _ _ => l

def TreeNode.measures : TreeNode → List (String × JSVal)
  | TreeNode.mk _ _ m _ _ => m

def TreeNode.children : TreeNode → Tree
  | TreeNode.mk _ _ _ c _ => c

def TreeNode.hasChildren : TreeNode → Bool
  | TreeNode.mk _ _ _ _ h => h

/-- Map lookup `obj[key]` on a tree level. -/
def lookupTree : Tree → String → Option TreeNode
  | Tree.nil, _ => none
  | Tree.cons k2 nd rest, k => if k2 == k then some nd else lookupTree rest k

/-- Map write `obj[key] = node`: replace in place when present, append
when absent (JS string-key insertion order). -/
def updateTree : Tree → String → TreeNode → Tree
  | Tree.nil, k, nd => Tree.cons k nd Tree.nil
  | Tree.cons k2 n2 rest, k, nd =>
      if k2 == k then Tree.cons k2 nd rest
      else Tree.cons k2 n2 (updateTree rest k nd)

/-- Number of entries of a tree level (`Object.keys(treeLevel).length`). -/
def treeLength : Tree → Nat
  | Tree.nil => 0
  | Tree.cons _ _ rest => 1 + treeLength rest

/-- Emptiness test `Object.keys(node.children).length > 0`, negated. -/
def isNilTree : Tree → Bool
  | Tree.nil => true
  | Tree.cons _ _ _ => false

/-- Measures-map lookup `node.measures[name]`. -/
def lookupMeasure : List (String × JSVal) → String → Option JSVal
  | [], _ => none
  | (n2, v2) :: rest, nm => if n2 == nm then some v2 else lookupMeasure rest nm

/-- Measures-map write `node.measures[name] = value`. -/
def setMeasure : List (String × JSVal) → String → JSVal → List (String × JSVal)
  | [], nm, v => [(nm, v)]
  | (n2, v2) :: rest, nm, v =>
      if n2 == nm then (n2, v) :: rest else (n2, v2) :: setMeasure rest nm v

/-- The measure-writing loop of the tree builder (source lines 134-139):
for each measure field, write the row's value into the measures map
unless that value is null or undefined. -/
def writeMeasures (row : List JSVal) : List Field → List (String × JSVal) → List (String × JSVal)
  | [], ms => ms
  | measure :: restm, ms =>
      let measureValue := cellAt row measure.index
      writeMeasures row restm
        (if isMissing measureValue then ms else setMeasure ms measure.fieldName measureValue)

/-- The `(field, levelIndex)` enumeration performed by
`hierarchyFields.forEach((field, levelIndex) => ...)`. -/
def enumFields (i : Nat) : List Field → List (Nat × Field)
  | [] => []
  | f :: fs => (i, f) :: enumFields (i+1) fs

/-- The per-row walk of `buildHierarchicalTree` (source lines 111-143).
The tree is threaded functionally: the JS `currentLevel` cursor into the
mutable tree corresponds to the `t` argument, and descending into
`currentLevel[value].children` corresponds to the recursive call whose
result becomes the node's new `children`. Note that the source's
null-value `return` inside `forEach` skips only the current level and
continues with the next field at the same cursor. -/
def insertLevels (measureFields : List Field) (numFields : Nat) (row : List JSVal) :
    Tree → List (Nat × Field) → Tree
  | t, [] => t
  | t, (levelIndex, field) :: rest =>
      let value := cellAt row field.index
      if isNullValue value then
        insertLevels measureFields numFields row t rest
      else
        let key := keyOf value
        let node0 :=
          match lookupTree t key with
          | some nd => nd
          | none => TreeNode.mk key levelIndex [] Tree.nil (decide (levelIndex < numFields - 1))
        let node1 := TreeNode.mk node0.name node0.level
          (writeMeasures row measureFields node0.measures)
          (insertLevels measureFields numFields row node0.children rest)
          node0.hasChildren
        updateTree t key node1

/-- `buildHierarchicalTree(data)` (source lines 108-147), with the
module-level `hierarchyFields` and `measureFields` passed explicitly. -/
def buildHierarchicalTree (hierarchyFields measureFields : List Field)
    (data : List (List JSVal)) : Tree :=
  data.foldl (fun tree row =>
    insertLevels measureFields hierarchyFields.length row tree (enumFields 0 hierarchyFields))
    Tree.nil

/-- `identifyFieldTypes(columns)` (source lines 85-103): partition the
columns into hierarchy fields (string, date-time, date) and measure
fields (float, int), in column order; other types are pushed nowhere. -/
def identifyFieldTypes (columns : List Column) : List Field × List Field :=
  columns.foldl (fun acc col =>
    if col.dataType == "string" || col.dataType == "date-time" || col.dataType == "date" then
      (acc.1 ++ [Field.mk col.index col.fieldName], acc.2)
    else if col.dataType == "float" || col.dataType == "int" then
      (acc.1, acc.2 ++ [Field.mk col.index col.fieldName])
    else acc) ([], [])

/-- JS `p.startsWith(pre)`: the characters of `pre` are a prefix of the
characters of `p`. -/
def strStartsWith (p pre : String) : Bool :=
  pre.data.isPrefixOf p.data

/-- Lexicographic comparison of character lists by code point, the order
used by the JS default `Array.prototype.sort()` on the key strings (the
two orders agree; all values in play are plain text). -/
def charListLe : List Char → List Char → Bool
  | [], _ => true
  | _ :: _, [] => false
  | c1 :: r1, c2 :: r2 =>
      if c1 = c2 then charListLe r1 r2 else decide (c1.toNat < c2.toNat)

/-- String comparison for the key sort. -/
def strLe (a b : String) : Bool :=
  charListLe a.data b.data

/-- `toggleNode(path)` (source lines 270-286) acting on the
`expandedNodes` set, modelled as a duplicate-free list of path keys:
when the key is present, delete it together with every entry that
starts with the key followed by the separator; when absent, add it. -/
def toggleNode (expandedNodes : List String) (path : List String) : List String :=
  let pathKey := String.intercalate "|" path
  if expandedNodes.contains pathKey then
    expandedNodes.filter (fun p => !(p == pathKey || strStartsWith p (pathKey ++ "|")))
  else
    expandedNodes ++ [pathKey]

/-- One table row emitted by `renderTreeLevel`: its `data-level`
attribute, its `data-path` attribute (the path key), the displayed node
name, whether the row carries the `expanded` class, and whether it shows
an expand/collapse icon (`node.hasChildren && children` non-empty). -/
structure RenderedRow where
  level : Nat
  pathKey : String
  name : String
  isExpanded : Bool
  hasExpandableChildren : Bool
deriving DecidableEq

/-- The key sort `Object.keys(treeLevel).sort()`: insertion of one entry
into an already key-sorted level. -/
def insortTree (key : String) (node : TreeNode) : Tree → Tree
  | Tree.nil => Tree.cons key node Tree.nil
  | Tree.cons k2 n2 rest =>
      if strLe key k2 then Tree.cons key node (Tree.cons k2 n2 rest)
      else Tree.cons k2 n2 (insortTree key node rest)

mutual
/-- Sort every level of the tree by key. `renderTreeLevel` sorts the
keys of each level on entry (`Object.keys(treeLevel).sort()`) and never
inspects sibling order otherwise, so sorting all levels up front and
walking the sorted tree is the same function; keys of a level are
pairwise distinct by construction. -/
def sortTree : Tree → Tree
  | Tree.nil => Tree.nil
  | Tree.cons key node rest => insortTree key (sortNode node) (sortTree rest)
def sortNode : TreeNode → TreeNode
  | TreeNode.mk name lvl ms children hc => TreeNode.mk name lvl ms (sortTree children) hc
end

mutual
/-- The `sortedKeys.forEach` loop of `renderTreeLevel` over an already
key-sorted level, threading the `tbody` accumulator of emitted rows. -/
def renderSorted (expandedNodes : List String) :
    Tree → List RenderedRow → Nat → List String → List RenderedRow
  | Tree.nil, tbody, _, _ => tbody
  | Tree.cons key node rest, tbody, level, path =>
      renderSorted expandedNodes rest
        (renderEntry expandedNodes key node tbody level path) level path
/-- The body of the `forEach` in `renderTreeLevel` (source lines
188-264): emit the row for this node, then, if the node is expanded and
`node.hasChildren` and its children map is non-empty, recursively render
the children at `level + 1`. -/
def renderEntry (expandedNodes : List String) (key : String) :
    TreeNode → List RenderedRow → Nat → List String → List RenderedRow
  | TreeNode.mk name _ _ children hc, tbody, level, path =>
      let currentPath := path ++ [key]
      let pathKey := String.intercalate "|" currentPath
      let isExpanded := expandedNodes.contains pathKey
      let tbody1 := tbody ++
        [RenderedRow.mk level pathKey name isExpanded (hc && !(isNilTree children))]
      if isExpanded && hc && !(isNilTree children) then
        renderSorted expandedNodes children tbody1 (level+1) currentPath
      else
        tbody1
end

/-- `renderTreeLevel(treeLevel, tbody, level, path)` (source lines
185-265), with the module-level `expandedNodes` passed explicitly and
the DOM `tbody` as a row-descriptor accumulator. -/
def renderTreeLevel (expandedNodes : List String) (treeLevel : Tree)
    (tbody : List RenderedRow) (level : Nat) (path : List String) : List RenderedRow :=
  renderSorted expandedNodes (sortTree treeLevel) tbody level path

mutual
/-- Modelled from the spec (section 4.4 Row Projector), with the descend
condition amended to match the code: depth-first pre-order traversal in
key-sorted order, emitting a visible row for every node visited and
descending into a node's children iff the node's path key is expanded
AND the node's `hasChildren` flag is set AND the children map is
non-empty. -/
def projectSorted (expandedNodes : List String) :
    Tree → Nat → List String → List RenderedRow
  | Tree.nil, _, _ => []
  | Tree.cons key node rest, level, path =>
      projectEntry expandedNodes key node level path ++
        projectSorted expandedNodes rest level path
def projectEntry (expandedNodes : List String) (key : String) :
    TreeNode → Nat → List String → List RenderedRow
  | TreeNode.mk name _ _ children hc, level, path =>
      let currentPath := path ++ [key]
      let pathKey := String.intercalate "|" currentPath
      let isExpanded := expandedNodes.contains pathKey
      RenderedRow.mk level pathKey name isExpanded (hc && !(isNilTree children)) ::
        (if isExpanded && hc && !(isNilTree children) then
          projectSorted expandedNodes children (level+1) currentPath
        else [])
end

/-- Modelled from the spec, amended descend condition: the Row Projector
as a pre-order flat projection of the key-sorted tree. -/
def specProject (expandedNodes : List String) (t : Tree) (level : Nat)
    (path : List String) : List RenderedRow :=
  projectSorted expandedNodes (sortTree t) level path

mutual
/-- Modelled from the spec exactly as claimed (section 4.4): identical
to `projectSorted` except that a node's children are traversed iff the
node's path key is expanded AND the node has at least one child, with no
reference to the `hasChildren` flag. -/
def projectSortedClaim (expandedNodes : List String) :
    Tree → Nat → List String → List RenderedRow
  | Tree.nil, _, _ => []
  | Tree.cons key node rest, level, path =>
      projectEntryClaim expandedNodes key node level path ++
        projectSortedClaim expandedNodes rest level path
def projectEntryClaim (expandedNodes : List String) (key : String) :
    TreeNode → Nat → List String → List RenderedRow
  | TreeNode.mk name _ _ children hc, level, path =>
      let currentPath := path ++ [key]
      let pathKey := String.intercalate "|" currentPath
      let isExpanded := expandedNodes.contains pathKey
      RenderedRow.mk level pathKey name isExpanded (hc && !(isNilTree children)) ::
        (if isExpanded && !(isNilTree children) then
          projectSortedClaim expandedNodes children (level+1) currentPath
        else [])
end

/-- Modelled from the spec exactly as claim C3 states the visibility
condition (expanded AND at least one child). -/
def specProjectClaim (expandedNodes : List String) (t : Tree) (level : Nat)
    (path : List String) : List RenderedRow :=
  projectSortedClaim expandedNodes (sortTree t) level path

/-- Outcome of one load attempt: the two classification errors of
`loadData` (source lines 43-51), or success carrying the built tree and
the initial render (empty expansion state). -/
inductive LoadOutcome where
  | noHierarchyFieldsError
  | noMeasureFieldsError
  | ok (tree : Tree) (rendered : List RenderedRow)

/-- The synchronous decision core of `loadData` (source lines 27-80):
classify the columns, halt with an error banner when either field list
is empty (no tree is built and nothing is rendered), otherwise build the
tree and render the top level with the initially empty expansion set. -/
def loadDataCore (columns : List Column) (data : List (List JSVal)) : LoadOutcome :=
  let fields := identifyFieldTypes columns
  if fields.1.isEmpty then LoadOutcome.noHierarchyFieldsError
  else if fields.2.isEmpty then LoadOutcome.noMeasureFieldsError
  else
    let tree := buildHierarchicalTree fields.1 fields.2 data
    LoadOutcome.ok tree (renderTreeLevel [] tree [] 0 [])

/-- Node addressed by a non-empty path of keys, one key per level of the
children maps; the empty path addresses no node (the root is implicit). -/
def pathLookup : Tree → List String → Option TreeNode
  | _, [] => none
  | t, [k] => lookupTree t k
  | t, k :: ks => (lookupTree t k).bind fun nd => pathLookup nd.children ks

/-- Keys of a row along a field enumeration. -/
def fieldKeys (row : List JSVal) (fields : List (Nat × Field)) : List String :=
  fields.map (fun p => keyOf (cellAt row p.2.index))

/-- Full hierarchy path of a row. -/
def rowPath (hierarchyFields : List Field) (row : List JSVal) : List String :=
  hierarchyFields.map (fun f => keyOf (cellAt row f.index))

mutual
/-- Depth of the tree: length of its longest chain of nodes. -/
def treeDepth : Tree → Nat
  | Tree.nil => 0
  | Tree.cons _ nd rest => max (nodeDepth nd) (treeDepth rest)
def nodeDepth : TreeNode → Nat
  | TreeNode.mk _ _ _ children _ => 1 + treeDepth children
end

/-- All top-level nodes of a level carry the given `level` field. -/
def levelsAre (l : Nat) : Tree → Bool
  | Tree.nil => true
  | Tree.cons _ nd rest => (nd.level == l) && levelsAre l rest

mutual
/-- Every node in the tree has all its children at `level + 1`. -/
def treeChildrenOk : Tree → Bool
  | Tree.nil => true
  | Tree.cons _ nd rest => nodeChildrenOk nd && treeChildrenOk rest
def nodeChildrenOk : TreeNode → Bool
  | TreeNode.mk _ lvl _ children _ => levelsAre (lvl+1) children && treeChildrenOk children
end

mutual
/-- Every node at depth `d` from here has `level = d` (levels count up
consecutively along every branch). -/
def levelsFromB (d : Nat) : Tree → Bool
  | Tree.nil => true
  | Tree.cons _ nd rest => nodeLevelsFromB d nd && levelsFromB d rest
def nodeLevelsFromB (d : Nat) : TreeNode → Bool
  | TreeNode.mk _ lvl _ children _ => (lvl == d) && levelsFromB (d+1) children
end

/-- Keys of one tree level in stored order
(`Object.keys(treeLevel)`). -/
def spineKeys : Tree → List String
  | Tree.nil => []
  | Tree.cons k _ rest => k :: spineKeys rest

/-- `k` is `strLe`-below every key of the level. -/
def spineAllGe (k : String) : Tree → Bool
  | Tree.nil => true
  | Tree.cons k2 _ rest => strLe k k2 && spineAllGe k rest

/-- The keys of this level are in ascending `strLe` order. -/
def spineSortedB : Tree → Bool
  | Tree.nil => true
  | Tree.cons k _ rest => spineAllGe k rest && spineSortedB rest

mutual
/-- The children maps of all nodes of this level, and below, are
key-sorted. -/
def childrenLevelsSorted : Tree → Bool
  | Tree.nil => true
  | Tree.cons _ nd rest => nodeLevelsSorted nd && childrenLevelsSorted rest
def nodeLevelsSorted : TreeNode → Bool
  | TreeNode.mk _ _ _ children _ => spineSortedB children && childrenLevelsSorted children
end

/-- Every level of the tree is key-sorted. -/
def allLevelsSorted (t : Tree) : Bool :=
  spineSortedB t && childrenLevelsSorted t

/-- Concrete fixture: the hierarchy fields of the end-to-end example
(country at column 0, state at column 1). -/
def hfCS : List Field := [Field.mk 0 "country", Field.mk 1 "state"]

/-- Concrete fixture: the measure field of the end-to-end example. -/
def mfSales : List Field := [Field.mk 2 "sales"]

/-- Concrete fixture: the rows of the end-to-end example. -/
def rowsUS : List (List JSVal) :=
  [[JSVal.str "US", JSVal.str "CA", JSVal.num 100],
   [JSVal.str "US", JSVal.str "TX", JSVal.num 50],
   [JSVal.str "CA", JSVal.str "ON", JSVal.num 30]]

/-- Concrete fixture: the tree of the end-to-end example. -/
def treeUS : Tree := buildHierarchicalTree hfCS mfSales rowsUS

/-- Concrete fixture: two hierarchy fields at columns 0 and 1. -/
def hfFF : List Field := [Field.mk 0 "f0", Field.mk 1 "f1"]

/-- Concrete fixture: one measure field at column 2. -/
def mfM : List Field := [Field.mk 2 "m"]

/-- Concrete fixture: three hierarchy fields at columns 0, 1, 2. -/
def hfFFF : List Field := [Field.mk 0 "f0", Field.mk 1 "f1", Field.mk 2 "f2"]

/-- Concrete fixture: one measure field at column 3. -/
def mfM3 : List Field := [Field.mk 3 "m"]

/-- Concrete fixture: a tree in which the first row's null at level 0
makes its level-1 value land at the top of the tree, so the second row's
level-0 node for the same key is that level-1 node (created with
`hasChildren = false`) which then acquires a child. -/
def treeShadow : Tree := buildHierarchicalTree hfFF mfM
  [[JSVal.null, JSVal.str "A", JSVal.num 1],
   [JSVal.str "A", JSVal.str "B", JSVal.num 2]]

/-! Basic facts about the association-structure operations. -/

theorem lookupTree_updateTree_self : ∀ (t : Tree) (k : String) (nd : TreeNode),
    lookupTree (updateTree t k nd) k = some nd
  | Tree.nil, k, nd => by simp [updateTree, lookupTree]
  | Tree.cons k2 n2 rest, k, nd => by
      by_cases h : k2 = k
      · simp [updateTree, lookupTree, h]
      · simp [updateTree, lookupTree, h, lookupTree_updateTree_self rest k nd]

theorem lookupTree_updateTree_ne : ∀ (t : Tree) (k k2 : String) (nd : TreeNode),
    k2 ≠ k → lookupTree (updateTree t k nd) k2 = lookupTree t k2
  | Tree.nil, k, k2, nd, h => by simp [updateTree, lookupTree, Ne.symm h]
  | Tree.cons k3 n3 rest, k, k2, nd, h => by
      by_cases h3 : k3 = k
      · subst h3
        simp [updateTree, lookupTree, Ne.symm h]
      · by_cases h4 : k3 = k2 <;>
          simp [updateTree, lookupTree, h3, h4, h,
            lookupTree_updateTree_ne rest k k2 nd h]

theorem pathLookup_nil : ∀ (ks : List String), pathLookup Tree.nil ks = none
  | [] => rfl
  | [_] => rfl
  | _ :: _ :: _ => rfl

/-! Expansion state: toggle. -/

/-- C6: for every expansion set and path, with `k` the joined path key:
when `k` is present, `toggleNode` keeps exactly the members that are
neither `k` itself nor have `k ++ "|"` as a prefix; when `k` is absent,
`toggleNode` adds exactly `k`. In particular expanding `A`, expanding
`A|B` and collapsing `A` leaves the set empty. -/
theorem C6_toggle_membership :
    (∀ (s : List String) (path : List String) (k : String),
      k ∈ toggleNode s path ↔
        (if String.intercalate "|" path ∈ s then
          k ∈ s ∧ ¬(k = String.intercalate "|" path ∨
            strStartsWith k (String.intercalate "|" path ++ "|") = true)
        else k ∈ s ∨ k = String.intercalate "|" path)) ∧
    toggleNode (toggleNode (toggleNode [] ["A"]) ["A", "B"]) ["A"] = [] := by
  constructor
  · intro s path k
    by_cases hmem : String.intercalate "|" path ∈ s
    · simp [toggleNode, hmem, List.mem_filter, not_or]
    · simp [toggleNode, hmem]
  · decide

/-- C7: toggling the same path twice restores the membership of that
path's key in the expansion set. -/
theorem C7_toggle_idempotence (s : List String) (path : List String) :
    (String.intercalate "|" path ∈ toggleNode (toggleNode s path) path) ↔
      (String.intercalate "|" path ∈ s) := by
  set pk := String.intercalate "|" path with hpk
  set t1 := toggleNode s path with ht1
  by_cases hmem : pk ∈ s
  · have h1 : pk ∉ t1 := by
      simp [ht1, toggleNode, ← hpk, hmem, List.mem_filter]
    simp [toggleNode, ← hpk, h1, hmem]
  · have h1 : t1 = s ++ [pk] := by simp [ht1, toggleNode, ← hpk, hmem]
    have h2 : pk ∈ t1 := by simp [h1]
    simp [toggleNode, ← hpk, h2, hmem, List.mem_filter]

/-! Field classification and the load pipeline. -/

theorem identifyFieldTypes_aux : ∀ (columns : List Column) (h m : List Field),
    columns.foldl (fun acc col =>
      if col.dataType == "string" || col.dataType == "date-time" || col.dataType == "date" then
        (acc.1 ++ [Field.mk col.index col.fieldName], acc.2)
      else if col.dataType == "float" || col.dataType == "int" then
        (acc.1, acc.2 ++ [Field.mk col.index col.fieldName])
      else acc) (h, m) =
    (h ++ (columns.filter fun c =>
        c.dataType == "string" || c.dataType == "date-time" || c.dataType == "date").map
        (fun c => Field.mk c.index c.fieldName),
     m ++ (columns.filter fun c => c.dataType == "float" || c.dataType == "int").map
        (fun c => Field.mk c.index c.fieldName))
  | [], h, m => by simp
  | col :: rest, h, m => by
      by_cases h1 : (col.dataType == "string" || col.dataType == "date-time" ||
          col.dataType == "date") = true
      · have h2 : (col.dataType == "float" || col.dataType == "int") = false := by
          simp only [Bool.or_eq_true, beq_iff_eq] at h1
          rcases h1 with (h1 | h1) | h1 <;> rw [h1] <;> rfl
        simp only [List.foldl_cons, List.filter_cons, h1, h2, if_true, Bool.false_eq_true,
          if_false]
        rw [identifyFieldTypes_aux rest (h ++ [Field.mk col.index col.fieldName]) m]
        simp
      · by_cases h2 : (col.dataType == "float" || col.dataType == "int") = true
        · simp only [List.foldl_cons, List.filter_cons, h1, h2, if_true, Bool.false_eq_true,
            if_false]
          rw [identifyFieldTypes_aux rest h (m ++ [Field.mk col.index col.fieldName])]
          simp
        · simp only [List.foldl_cons, List.filter_cons, h1, h2, Bool.false_eq_true, if_false]
          rw [identifyFieldTypes_aux rest h m]

/-- C8: classification puts exactly the string/date-time/date columns
into the hierarchy list and exactly the float/int columns into the
measure list, each in source column order; columns of any other type
appear in neither list. -/
theorem C8_field_classification (columns : List Column) :
    identifyFieldTypes columns =
      ((columns.filter fun c =>
          c.dataType == "string" || c.dataType == "date-time" || c.dataType == "date").map
          (fun c => Field.mk c.index c.fieldName),
       (columns.filter fun c => c.dataType == "float" || c.dataType == "int").map
          (fun c => Field.mk c.index c.fieldName)) := by
  simpa [identifyFieldTypes] using identifyFieldTypes_aux columns [] []

/-- C9: the load pipeline errors iff a classified field list is empty
(hierarchy checked first), and otherwise succeeds with the built tree
and its initial render; in the error outcomes no tree is built and
nothing is rendered. -/
theorem C9_pipeline_errors (columns : List Column) (data : List (List JSVal)) :
    (loadDataCore columns data = LoadOutcome.noHierarchyFieldsError ↔
      (identifyFieldTypes columns).1 = []) ∧
    (loadDataCore columns data = LoadOutcome.noMeasureFieldsError ↔
      ((identifyFieldTypes columns).1 ≠ [] ∧ (identifyFieldTypes columns).2 = [])) ∧
    ((identifyFieldTypes columns).1 ≠ [] → (identifyFieldTypes columns).2 ≠ [] →
      loadDataCore columns data =
        LoadOutcome.ok
          (buildHierarchicalTree (identifyFieldTypes columns).1
            (identifyFieldTypes columns).2 data)
          (renderTreeLevel []
            (buildHierarchicalTree (identifyFieldTypes columns).1
              (identifyFieldTypes columns).2 data) [] 0 [])) := by
  by_cases h1 : (identifyFieldTypes columns).1 = []
  · simp [loadDataCore, h1]
  · by_cases h2 : (identifyFieldTypes columns).2 = []
    · simp [loadDataCore, h1, h2]
    · simp [loadDataCore, h1, h2]

/-- C9 witness: a concrete column list with one string and one int
column loads successfully. -/
theorem C9_witness :
    loadDataCore [Column.mk 0 "c" "string", Column.mk 1 "v" "int"] [] =
      LoadOutcome.ok
        (buildHierarchicalTree
          (identifyFieldTypes [Column.mk 0 "c" "string", Column.mk 1 "v" "int"]).1
          (identifyFieldTypes [Column.mk 0 "c" "string", Column.mk 1 "v" "int"]).2 [])
        (renderTreeLevel []
          (buildHierarchicalTree
            (identifyFieldTypes [Column.mk 0 "c" "string", Column.mk 1 "v" "int"]).1
            (identifyFieldTypes [Column.mk 0 "c" "string", Column.mk 1 "v" "int"]).2 [])
          [] 0 []) :=
  (C9_pipeline_errors [Column.mk 0 "c" "string", Column.mk 1 "v" "int"] []).2.2
    (by decide) (by decide)

/-! Null handling in the tree builder (claim C1). -/

/-- C1 counterexample: for a row whose level-0 cell is null, the claim
says building processes no level of that row and creates no node, yet
the builder creates a node for the level-1 value "A" (with level field
1) at the top of the tree: the null `return` inside `forEach` skips only
the current level. -/
theorem C1_counterexample :
    isNullValue (cellAt [JSVal.null, JSVal.str "A", JSVal.num 5] 0) = true ∧
    (lookupTree (buildHierarchicalTree hfFF mfM [[JSVal.null, JSVal.str "A", JSVal.num 5]])
      "A").map TreeNode.level = some 1 := by decide

/-- C1 (amended): a null/undefined/sentinel cell at level L contributes
no node at level L — that level is dropped from the row's walk — but
processing continues with deeper levels at the same cursor; shallower
non-null levels are unaffected and still receive the row's measure
writes. Formally, the per-row walk equals the walk over just the row's
non-null levels. -/
theorem C1_amended_null_level_skipped (mf : List Field) (n : Nat) (row : List JSVal) :
    ∀ (fields : List (Nat × Field)) (t : Tree),
      insertLevels mf n row t fields =
        insertLevels mf n row t
          (fields.filter fun q => !(isNullValue (cellAt row q.2.index)))
  | [], _ => rfl
  | (l, f) :: rest, t => by
      have ih := C1_amended_null_level_skipped mf n row rest
      by_cases hnull : isNullValue (cellAt row f.index) = true
      · simpa [insertLevels, List.filter_cons, hnull] using ih t
      · simp [insertLevels, List.filter_cons, hnull, ih]

/-! Counterexamples to the level invariant, the projection condition and
the end-to-end example. -/

/-- C2 counterexample: with three hierarchy fields and the single row
(A, null, C), node A (level 0) acquires the child C with level field 2,
so the children-at-level-plus-one half of the invariant fails. -/
theorem C2_counterexample :
    ¬(treeDepth (buildHierarchicalTree hfFFF mfM3
        [[JSVal.str "A", JSVal.null, JSVal.str "C", JSVal.num 1]]) ≤ hfFFF.length ∧
      treeChildrenOk (buildHierarchicalTree hfFFF mfM3
        [[JSVal.str "A", JSVal.null, JSVal.str "C", JSVal.num 1]]) = true) := by decide

/-- C3 counterexample: in `treeShadow` the node A is expanded and has
one child, but its `hasChildren` flag is false (it was created at the
leaf level by the null-truncated first row), so the renderer does not
traverse its children although the claimed visibility condition
(expanded AND at least one child) holds. -/
theorem C3_counterexample :
    renderTreeLevel ["A"] treeShadow [] 0 [] ≠ specProjectClaim ["A"] treeShadow 0 [] ∧
    (lookupTree treeShadow "A").map (fun nd => (nd.hasChildren, treeLength nd.children)) =
      some (false, 1) := by decide

/-- C4 counterexample: in the end-to-end example the level-0 node US has
two children (CA and TX), not one as claimed. -/
theorem C4_counterexample :
    ¬((lookupTree treeUS "US").map (fun nd => treeLength nd.children) = some 1) := by decide

/-! Correctness of the key sort used by the renderer. -/

theorem charListLe_total : ∀ (a b : List Char),
    charListLe a b = true ∨ charListLe b a = true
  | [], _ => Or.inl rfl
  | _ :: _, [] => Or.inr rfl
  | c1 :: r1, c2 :: r2 => by
      by_cases hc : c1 = c2
      · subst hc
        rcases charListLe_total r1 r2 with h | h
        · left
          simp [charListLe, h]
        · right
          simp [charListLe, h]
      · rcases Nat.lt_trichotomy c1.toNat c2.toNat with hlt | heq | hgt
        · left
          simp [charListLe, hc, hlt]
        · exact absurd (Char.ext (UInt32.ext heq)) hc
        · right
          simp [charListLe, Ne.symm hc, hgt]

theorem charListLe_trans : ∀ (a b c : List Char),
    charListLe a b = true → charListLe b c = true → charListLe a c = true
  | [], _, _, _, _ => rfl
  | _ :: _, [], _, h1, _ => by simp [charListLe] at h1
  | _ :: _, _ :: _, [], _, h2 => by simp [charListLe] at h2
  | a1 :: r1, b1 :: r2, c1 :: r3, h1, h2 => by
      by_cases hab : a1 = b1
      · subst hab
        by_cases hbc : a1 = c1
        · subst hbc
          simp only [charListLe, if_pos rfl] at h1 h2 ⊢
          exact charListLe_trans r1 r2 r3 h1 h2
        · simp only [charListLe, if_pos rfl] at h1
          simpa [charListLe, hbc] using h2
      · by_cases hbc : b1 = c1
        · subst hbc
          simpa [charListLe, hab] using h1
        · simp only [charListLe, hab, if_false, decide_eq_true_eq] at h1
          simp only [charListLe, hbc, if_false, decide_eq_true_eq] at h2
          by_cases hac : a1 = c1
          · subst hac
            omega
          · simp only [charListLe, hac, if_false, decide_eq_true_eq]
            omega

theorem strLe_total (a b : String) : strLe a b = true ∨ strLe b a = true :=
  charListLe_total a.data b.data

theorem strLe_trans (a b c : String) :
    strLe a b = true → strLe b c = true → strLe a c = true :=
  charListLe_trans a.data b.data c.data

theorem spineAllGe_mono (k k2 : String) : ∀ (t : Tree), strLe k k2 = true →
    spineAllGe k2 t = true → spineAllGe k t = true
  | Tree.nil, _, _ => rfl
  | Tree.cons k3 n3 rest, h1, h2 => by
      rw [spineAllGe, Bool.and_eq_true] at h2
      simp [spineAllGe, strLe_trans k k2 k3 h1 h2.1, spineAllGe_mono k k2 rest h1 h2.2]

theorem spineAllGe_insortTree (k0 k : String) (nd : TreeNode) :
    ∀ (t : Tree), strLe k0 k = true → spineAllGe k0 t = true →
      spineAllGe k0 (insortTree k nd t) = true
  | Tree.nil, h1, _ => by simp [insortTree, spineAllGe, h1]
  | Tree.cons k2 n2 rest, h1, h2 => by
      rw [spineAllGe, Bool.and_eq_true] at h2
      by_cases hle : strLe k k2 = true
      · simp [insortTree, hle, spineAllGe, h1, h2.1, h2.2]
      · simp [insortTree, hle, spineAllGe, h2.1,
          spineAllGe_insortTree k0 k nd rest h1 h2.2]

theorem spineSortedB_insortTree (k : String) (nd : TreeNode) :
    ∀ (t : Tree), spineSortedB t = true → spineSortedB (insortTree k nd t) = true
  | Tree.nil, _ => by simp [insortTree, spineSortedB, spineAllGe]
  | Tree.cons k2 n2 rest, h => by
      rw [spineSortedB, Bool.and_eq_true] at h
      by_cases hle : strLe k k2 = true
      · have hge : spineAllGe k rest = true := spineAllGe_mono k k2 rest hle h.1
        simp [insortTree, hle, spineSortedB, spineAllGe, hge, h.1, h.2]
      · have hle2 : strLe k2 k = true := (strLe_total k k2).resolve_left hle
        simp [insortTree, hle, spineSortedB,
          spineAllGe_insortTree k2 k nd rest hle2 h.1,
          spineSortedB_insortTree k nd rest h.2]

theorem childrenLevelsSorted_insortTree (k : String) (nd : TreeNode) :
    ∀ (t : Tree), nodeLevelsSorted nd = true → childrenLevelsSorted t = true →
      childrenLevelsSorted (insortTree k nd t) = true
  | Tree.nil, h1, _ => by simp [insortTree, childrenLevelsSorted, h1]
  | Tree.cons k2 n2 rest, h1, h2 => by
      rw [childrenLevelsSorted, Bool.and_eq_true] at h2
      by_cases hle : strLe k k2 = true
      · simp [insortTree, hle, childrenLevelsSorted, h1, h2.1, h2.2]
      · simp [insortTree, hle, childrenLevelsSorted, h2.1,
          childrenLevelsSorted_insortTree k nd rest h1 h2.2]

mutual
theorem sortTree_sorted : ∀ (t : Tree),
    spineSortedB (sortTree t) = true ∧ childrenLevelsSorted (sortTree t) = true
  | Tree.nil => ⟨rfl, rfl⟩
  | Tree.cons k nd rest => by
      obtain ⟨h1, h2⟩ := sortTree_sorted rest
      have h3 := sortNode_sorted nd
      simp only [sortTree]
      exact ⟨spineSortedB_insortTree k (sortNode nd) (sortTree rest) h1,
        childrenLevelsSorted_insortTree k (sortNode nd) (sortTree rest) h3 h2⟩
theorem sortNode_sorted : ∀ (nd : TreeNode), nodeLevelsSorted (sortNode nd) = true
  | TreeNode.mk nm lv ms ch hc => by
      obtain ⟨h1, h2⟩ := sortTree_sorted ch
      simp [sortNode, nodeLevelsSorted, h1, h2]
end

theorem allLevelsSorted_sortTree (t : Tree) : allLevelsSorted (sortTree t) = true := by
  obtain ⟨h1, h2⟩ := sortTree_sorted t
  simp [allLevelsSorted, h1, h2]

theorem spineKeys_insortTree (k : String) (nd : TreeNode) :
    ∀ (t : Tree), List.Perm (spineKeys (insortTree k nd t)) (k :: spineKeys t)
  | Tree.nil => by simp [insortTree, spineKeys]
  | Tree.cons k2 n2 rest => by
      by_cases hle : strLe k k2 = true
      · simp [insortTree, hle, spineKeys]
      · simp only [insortTree, hle, Bool.false_eq_true, if_false, spineKeys]
        exact ((spineKeys_insortTree k nd rest).cons k2).trans
          (List.Perm.swap k k2 (spineKeys rest))

theorem spineKeys_sortTree : ∀ (t : Tree),
    List.Perm (spineKeys (sortTree t)) (spineKeys t)
  | Tree.nil => List.Perm.refl _
  | Tree.cons k nd rest => by
      simp only [sortTree, spineKeys]
      exact (spineKeys_insortTree k (sortNode nd) (sortTree rest)).trans
        ((spineKeys_sortTree rest).cons k)

/-! Projection (claim C3): the DOM-accumulating renderer equals the
spec's flat pre-order projection, with the amended descend condition. -/

mutual
theorem renderSorted_eq_projectSorted (e : List String) :
    ∀ (t : Tree) (tbody : List RenderedRow) (level : Nat) (path : List String),
      renderSorted e t tbody level path = tbody ++ projectSorted e t level path
  | Tree.nil, tbody, level, path => by
      simp [renderSorted, projectSorted]
  | Tree.cons key nd rest, tbody, level, path => by
      have h1 := renderEntry_eq_projectEntry e key nd tbody level path
      have h2 := renderSorted_eq_projectSorted e rest
        (renderEntry e key nd tbody level path) level path
      simp only [renderSorted, projectSorted]
      rw [h2, h1]
      simp
theorem renderEntry_eq_projectEntry (e : List String) (key : String) :
    ∀ (nd : TreeNode) (tbody : List RenderedRow) (level : Nat) (path : List String),
      renderEntry e key nd tbody level path = tbody ++ projectEntry e key nd level path
  | TreeNode.mk name lvl ms children hc, tbody, level, path => by
      have h3 := renderSorted_eq_projectSorted e children
      by_cases hcond : (e.contains (String.intercalate "|" (path ++ [key])) && hc &&
          !(isNilTree children)) = true
      · simp only [renderEntry, projectEntry]
        rw [if_pos hcond, if_pos hcond, h3]
        simp
      · simp only [renderEntry, projectEntry]
        rw [if_neg hcond, if_neg hcond]
end

/-- C3 (amended): the renderer is the spec's depth-first pre-order
projection of the key-sorted tree, emitting one row per visited node and
descending past a node iff its path key is expanded AND its
`hasChildren` flag is set AND its children map is non-empty (the flag,
fixed at node creation, is the extra condition the claim omits). The
last two conjuncts certify the sort both traversals use: every level of
the sorted tree is in ascending lexicographic key order, and its
top-level keys are a permutation of the original ones. -/
theorem C3_amended_projection (e : List String) (t : Tree) (tbody : List RenderedRow)
    (level : Nat) (path : List String) :
    renderTreeLevel e t tbody level path = tbody ++ specProject e t level path ∧
    allLevelsSorted (sortTree t) = true ∧
    List.Perm (spineKeys (sortTree t)) (spineKeys t) :=
  ⟨renderSorted_eq_projectSorted e (sortTree t) tbody level path,
   allLevelsSorted_sortTree t, spineKeys_sortTree t⟩

/-! Tree depth and level invariants (claim C2). -/

theorem enumFields_length : ∀ (i : Nat) (hf : List Field),
    (enumFields i hf).length = hf.length
  | _, [] => rfl
  | i, _ :: fs => by simp [enumFields, enumFields_length (i+1) fs]

theorem nodeDepth_lookupTree : ∀ (t : Tree) (k : String) (nd : TreeNode),
    lookupTree t k = some nd → nodeDepth nd ≤ treeDepth t
  | Tree.nil, k, nd, h => by simp [lookupTree] at h
  | Tree.cons k2 n2 rest, k, nd, h => by
      by_cases hk : k2 = k
      · simp only [lookupTree, hk, beq_self_eq_true, if_true, Option.some.injEq] at h
        subst h
        exact le_max_left _ _
      · simp only [lookupTree, beq_iff_eq, hk, if_false] at h
        exact le_trans (nodeDepth_lookupTree rest k nd h) (le_max_right _ _)

theorem treeDepth_updateTree : ∀ (t : Tree) (k : String) (nd : TreeNode),
    treeDepth (updateTree t k nd) ≤ max (treeDepth t) (nodeDepth nd)
  | Tree.nil, k, nd => by simp [updateTree, treeDepth]
  | Tree.cons k2 n2 rest, k, nd => by
      by_cases hk : k2 = k
      · simp only [updateTree, hk, beq_self_eq_true, if_true, treeDepth]
        omega
      · simp only [updateTree, beq_iff_eq, hk, if_false, treeDepth]
        have ih := treeDepth_updateTree rest k nd
        omega

theorem treeDepth_insertLevels (mf : List Field) (n : Nat) (row : List JSVal) :
    ∀ (fields : List (Nat × Field)) (t : Tree),
      treeDepth (insertLevels mf n row t fields) ≤ max (treeDepth t) fields.length
  | [], t => by simp [insertLevels]
  | (l, f) :: rest, t => by
      by_cases hnull : isNullValue (cellAt row f.index) = true
      · have ih := treeDepth_insertLevels mf n row rest t
        simp only [insertLevels, hnull, if_true, List.length_cons]
        omega
      · simp only [insertLevels]
        rw [if_neg hnull]
        cases hl : lookupTree t (keyOf (cellAt row f.index)) with
        | none =>
            have ih := treeDepth_insertLevels mf n row rest Tree.nil
            have h1 := treeDepth_updateTree t (keyOf (cellAt row f.index))
              (TreeNode.mk (TreeNode.mk (keyOf (cellAt row f.index)) l [] Tree.nil
                  (decide (l < n - 1))).name
                (TreeNode.mk (keyOf (cellAt row f.index)) l [] Tree.nil
                  (decide (l < n - 1))).level
                (writeMeasures row mf (TreeNode.mk (keyOf (cellAt row f.index)) l [] Tree.nil
                  (decide (l < n - 1))).measures)
                (insertLevels mf n row (TreeNode.mk (keyOf (cellAt row f.index)) l [] Tree.nil
                  (decide (l < n - 1))).children rest)
                (TreeNode.mk (keyOf (cellAt row f.index)) l [] Tree.nil
                  (decide (l < n - 1))).hasChildren)
            simp only [hl, TreeNode.children, TreeNode.name, TreeNode.level, TreeNode.measures,
              TreeNode.hasChildren, nodeDepth, treeDepth, List.length_cons] at *
            omega
        | some nd =>
            have ih := treeDepth_insertLevels mf n row rest nd.children
            have h2 := nodeDepth_lookupTree t (keyOf (cellAt row f.index)) nd hl
            have h1 := treeDepth_updateTree t (keyOf (cellAt row f.index))
              (TreeNode.mk nd.name nd.level (writeMeasures row mf nd.measures)
                (insertLevels mf n row nd.children rest) nd.hasChildren)
            cases nd with
            | mk nm lv msr ch hcb =>
                simp only [hl, TreeNode.children, TreeNode.name, TreeNode.level,
                  TreeNode.measures, TreeNode.hasChildren, nodeDepth, treeDepth,
                  List.length_cons] at *
                omega

theorem treeDepth_build_aux (hf mf : List Field) :
    ∀ (rows : List (List JSVal)) (t : Tree),
      treeDepth (rows.foldl (fun tree row =>
          insertLevels mf hf.length row tree (enumFields 0 hf)) t) ≤
        max (treeDepth t) hf.length
  | [], t => by simp
  | r :: rs, t => by
      have ih := treeDepth_build_aux hf mf rs
        (insertLevels mf hf.length r t (enumFields 0 hf))
      have h1 := treeDepth_insertLevels mf hf.length r (enumFields 0 hf) t
      have h2 := enumFields_length 0 hf
      simp only [List.foldl_cons] at *
      omega

theorem nodeLevelsFromB_eq (d : Nat) (nd : TreeNode) :
    nodeLevelsFromB d nd = ((nd.level == d) && levelsFromB (d+1) nd.children) := by
  cases nd
  rfl

theorem nodeLevelsFromB_lookup : ∀ (t : Tree) (d : Nat) (k : String) (nd : TreeNode),
    levelsFromB d t = true → lookupTree t k = some nd → nodeLevelsFromB d nd = true
  | Tree.nil, d, k, nd, hlv, he => by simp [lookupTree] at he
  | Tree.cons k2 n2 rest, d, k, nd, hlv, he => by
      rw [levelsFromB, Bool.and_eq_true] at hlv
      by_cases hk : k2 = k
      · simp only [lookupTree, hk, beq_self_eq_true, if_true, Option.some.injEq] at he
        subst he
        exact hlv.1
      · simp only [lookupTree, beq_iff_eq, hk, if_false] at he
        exact nodeLevelsFromB_lookup rest d k nd hlv.2 he

theorem levelsFromB_updateTree : ∀ (t : Tree) (d : Nat) (k : String) (nd : TreeNode),
    levelsFromB d t = true → nodeLevelsFromB d nd = true →
    levelsFromB d (updateTree t k nd) = true
  | Tree.nil, d, k, nd, hlv, hnd => by
      simp [updateTree, levelsFromB, hnd]
  | Tree.cons k2 n2 rest, d, k, nd, hlv, hnd => by
      rw [levelsFromB, Bool.and_eq_true] at hlv
      by_cases hk : k2 = k
      · simp [updateTree, hk, levelsFromB, hnd, hlv.2]
      · simp [updateTree, beq_iff_eq, hk, levelsFromB, hlv.1,
          levelsFromB_updateTree rest d k nd hlv.2 hnd]

theorem levelsFromB_insertLevels (mf : List Field) (n : Nat) (row : List JSVal) :
    ∀ (hfRest : List Field) (d : Nat) (t : Tree),
      (∀ f ∈ hfRest, isNullValue (cellAt row f.index) = false) →
      levelsFromB d t = true →
      levelsFromB d (insertLevels mf n row t (enumFields d hfRest)) = true
  | [], d, t, _, hlv => by simpa [enumFields, insertLevels] using hlv
  | f :: fs, d, t, hnn, hlv => by
      have hf0 : isNullValue (cellAt row f.index) = false := hnn f (by simp)
      have hnn2 : ∀ g ∈ fs, isNullValue (cellAt row g.index) = false :=
        fun g hg => hnn g (by simp [hg])
      simp only [enumFields, insertLevels]
      rw [if_neg (by simp [hf0])]
      cases hl : lookupTree t (keyOf (cellAt row f.index)) with
      | none =>
          have ih := levelsFromB_insertLevels mf n row fs (d+1) Tree.nil hnn2 rfl
          apply levelsFromB_updateTree t d _ _ hlv
          simp [nodeLevelsFromB_eq, TreeNode.level, TreeNode.children, ih]
      | some nd =>
          have hnd := nodeLevelsFromB_lookup t d _ nd hlv hl
          cases nd with
          | mk nm lv msr ch hcb =>
              rw [nodeLevelsFromB, Bool.and_eq_true, beq_iff_eq] at hnd
              have ih := levelsFromB_insertLevels mf n row fs (d+1) ch hnn2 hnd.2
              apply levelsFromB_updateTree t d _ _ hlv
              simp [nodeLevelsFromB, TreeNode.level, TreeNode.children, hnd.1, ih]

theorem levelsAre_of_levelsFromB : ∀ (t : Tree) (d : Nat),
    levelsFromB d t = true → levelsAre d t = true
  | Tree.nil, _, _ => rfl
  | Tree.cons k nd rest, d, h => by
      rw [levelsFromB, Bool.and_eq_true] at h
      have h1 := h.1
      rw [nodeLevelsFromB_eq, Bool.and_eq_true] at h1
      simp [levelsAre, h1.1, levelsAre_of_levelsFromB rest d h.2]

mutual
theorem treeChildrenOk_of_levelsFromB : ∀ (t : Tree) (d : Nat),
    levelsFromB d t = true → treeChildrenOk t = true
  | Tree.nil, _, _ => rfl
  | Tree.cons k nd rest, d, h => by
      rw [levelsFromB, Bool.and_eq_true] at h
      rw [treeChildrenOk, Bool.and_eq_true]
      exact ⟨nodeChildrenOk_of_levelsFromB nd d h.1,
        treeChildrenOk_of_levelsFromB rest d h.2⟩
theorem nodeChildrenOk_of_levelsFromB : ∀ (nd : TreeNode) (d : Nat),
    nodeLevelsFromB d nd = true → nodeChildrenOk nd = true
  | TreeNode.mk nm lv msr ch hcb, d, h => by
      rw [nodeLevelsFromB, Bool.and_eq_true, beq_iff_eq] at h
      rw [nodeChildrenOk, Bool.and_eq_true, h.1]
      exact ⟨levelsAre_of_levelsFromB ch _ h.2, treeChildrenOk_of_levelsFromB ch _ h.2⟩
end

theorem levelsFromB_build_aux (hf mf : List Field) :
    ∀ (rows : List (List JSVal)) (t : Tree),
      (∀ row ∈ rows, ∀ f ∈ hf, isNullValue (cellAt row f.index) = false) →
      levelsFromB 0 t = true →
      levelsFromB 0 (rows.foldl (fun tree row =>
        insertLevels mf hf.length row tree (enumFields 0 hf)) t) = true
  | [], t, _, hlv => hlv
  | r :: rs, t, hnn, hlv => by
      simp only [List.foldl_cons]
      exact levelsFromB_build_aux hf mf rs _
        (fun row hrow f hf2 => hnn row (by simp [hrow]) f hf2)
        (levelsFromB_insertLevels mf hf.length r hf 0 t
          (fun f hf2 => hnn r (by simp) f hf2) hlv)

/-- C2 (amended): the tree's depth never exceeds the number of
hierarchy fields; and provided every row has non-null (non-sentinel)
values at all hierarchy fields, every node's children are all at
`level + 1`. The children-level half needs the proviso because a null
cell makes the builder skip a level while keeping the cursor, creating a
child at a deeper nominal level (see the counterexample). -/
theorem C2_amended_depth_and_levels (hf mf : List Field) (rows : List (List JSVal)) :
    treeDepth (buildHierarchicalTree hf mf rows) ≤ hf.length ∧
    ((∀ row ∈ rows, ∀ f ∈ hf, isNullValue (cellAt row f.index) = false) →
      treeChildrenOk (buildHierarchicalTree hf mf rows) = true) := by
  constructor
  · have h := treeDepth_build_aux hf mf rows Tree.nil
    simpa [buildHierarchicalTree, treeDepth] using h
  · intro hnn
    exact treeChildrenOk_of_levelsFromB _ 0
      (levelsFromB_build_aux hf mf rows Tree.nil hnn rfl)

/-- C2 witness: a concrete null-free data set satisfies both halves of
the amended invariant. -/
theorem C2_witness :
    treeDepth (buildHierarchicalTree hfFF mfM
      [[JSVal.str "A", JSVal.str "B", JSVal.num 1]]) ≤ hfFF.length ∧
    treeChildrenOk (buildHierarchicalTree hfFF mfM
      [[JSVal.str "A", JSVal.str "B", JSVal.num 1]]) = true :=
  ⟨(C2_amended_depth_and_levels hfFF mfM
      [[JSVal.str "A", JSVal.str "B", JSVal.num 1]]).1,
   (C2_amended_depth_and_levels hfFF mfM
      [[JSVal.str "A", JSVal.str "B", JSVal.num 1]]).2 (by decide)⟩

/-! Measure semantics (claim C5). -/

theorem lookupMeasure_setMeasure (nm nm2 : String) (v : JSVal) : ∀ (ms : List (String × JSVal)),
    lookupMeasure (setMeasure ms nm v) nm2 =
      if nm = nm2 then some v else lookupMeasure ms nm2
  | [] => by
      by_cases h : nm = nm2 <;> simp [setMeasure, lookupMeasure, h]
  | (n2, v2) :: rest => by
      by_cases h1 : n2 = nm
      · subst h1
        by_cases h2 : n2 = nm2 <;> simp [setMeasure, lookupMeasure, h2]
      · by_cases h2 : n2 = nm2
        · subst h2
          simp [setMeasure, lookupMeasure, h1, Ne.symm h1]
        · simp [setMeasure, lookupMeasure, h1, h2, lookupMeasure_setMeasure nm nm2 v rest]

theorem lookupMeasure_writeMeasures_notin (row : List JSVal) (nm : String) :
    ∀ (mfs : List Field) (ms : List (String × JSVal)),
      nm ∉ mfs.map Field.fieldName →
      lookupMeasure (writeMeasures row mfs ms) nm = lookupMeasure ms nm
  | [], ms, _ => rfl
  | mfd :: rest, ms, hnotin => by
      have h1 : mfd.fieldName ≠ nm := by
        intro he
        exact hnotin (by simp [he])
      have h2 : nm ∉ rest.map Field.fieldName := fun hin => hnotin (by simp [hin])
      by_cases hmiss : isMissing (cellAt row mfd.index) = true
      · simp only [writeMeasures]
        rw [if_pos hmiss]
        exact lookupMeasure_writeMeasures_notin row nm rest ms h2
      · simp only [writeMeasures]
        rw [if_neg hmiss, lookupMeasure_writeMeasures_notin row nm rest _ h2,
          lookupMeasure_setMeasure, if_neg h1]

theorem lookupMeasure_writeMeasures (row : List JSVal) :
    ∀ (mfs : List Field) (ms : List (String × JSVal)) (m : Field),
      (mfs.map Field.fieldName).Nodup → m ∈ mfs →
      lookupMeasure (writeMeasures row mfs ms) m.fieldName =
        (if isMissing (cellAt row m.index) = true then lookupMeasure ms m.fieldName
         else some (cellAt row m.index))
  | [], ms, m, _, hm => by simp at hm
  | mfd :: rest, ms, m, hnd, hm => by
      rw [List.map_cons, List.nodup_cons] at hnd
      rcases List.mem_cons.mp hm with he | hm2
      · subst he
        simp only [writeMeasures]
        rw [lookupMeasure_writeMeasures_notin row m.fieldName rest _ hnd.1]
        by_cases hmiss : isMissing (cellAt row m.index) = true
        · rw [if_pos hmiss, if_pos hmiss]
        · rw [if_neg hmiss, if_neg hmiss, lookupMeasure_setMeasure, if_pos rfl]
      · have hne : mfd.fieldName ≠ m.fieldName := by
          intro he2
          exact hnd.1 (he2 ▸ List.mem_map_of_mem Field.fieldName hm2)
        simp only [writeMeasures]
        rw [lookupMeasure_writeMeasures row rest _ m hnd.2 hm2]
        by_cases hmiss : isMissing (cellAt row m.index) = true
        · rw [if_pos hmiss, if_pos hmiss]
          by_cases hmiss2 : isMissing (cellAt row mfd.index) = true
          · rw [if_pos hmiss2]
          · rw [if_neg hmiss2, lookupMeasure_setMeasure, if_neg hne]
        · rw [if_neg hmiss, if_neg hmiss]

theorem pathLookup_cons_cons (t : Tree) (k k2 : String) (ks : List String) :
    pathLookup t (k :: k2 :: ks) =
      (lookupTree t k).bind fun nd => pathLookup nd.children (k2 :: ks) := rfl

theorem pathLookup_insertLevels_measures (mf : List Field) (n : Nat) (row : List JSVal) :
    ∀ (fields : List (Nat × Field)) (t : Tree) (j : Nat),
      j < fields.length →
      (∀ q ∈ fields, isNullValue (cellAt row q.2.index) = false) →
      (pathLookup (insertLevels mf n row t fields)
          (fieldKeys row (fields.take (j+1)))).map TreeNode.measures =
        some (writeMeasures row mf
          (((pathLookup t (fieldKeys row (fields.take (j+1)))).map TreeNode.measures).getD []))
  | [], _, j, hj, _ => by simp at hj
  | (l, f) :: rest, t, j, hj, hnn => by
      have hf0 : isNullValue (cellAt row f.index) = false := hnn (l, f) (by simp)
      have hnn2 : ∀ q ∈ rest, isNullValue (cellAt row q.2.index) = false :=
        fun q hq => hnn q (by simp [hq])
      simp only [insertLevels]
      rw [if_neg (by simp [hf0])]
      cases j with
      | zero =>
          simp only [List.take, fieldKeys, List.map_cons, List.map_nil]
          cases hl : lookupTree t (keyOf (cellAt row f.index)) with
          | none =>
              simp [pathLookup, hl, lookupTree_updateTree_self, TreeNode.measures,
                TreeNode.name, TreeNode.level, TreeNode.children, TreeNode.hasChildren]
          | some nd =>
              cases nd with
              | mk nm lv msr ch hcb =>
                  simp [pathLookup, hl, lookupTree_updateTree_self, TreeNode.measures,
                    TreeNode.name, TreeNode.level, TreeNode.children, TreeNode.hasChildren]
      | succ j2 =>
          have hj2 : j2 < rest.length := by
            simpa using Nat.lt_of_succ_lt_succ hj
          have hkslen : (fieldKeys row (rest.take (j2+1))).length = j2 + 1 := by
            simp only [fieldKeys, List.length_map, List.length_take]
            omega
          obtain ⟨k2, ks2, hks⟩ : ∃ k2 ks2,
              fieldKeys row (rest.take (j2+1)) = k2 :: ks2 := by
            cases hc : fieldKeys row (rest.take (j2+1)) with
            | nil => rw [hc] at hkslen; simp at hkslen
            | cons a b => exact ⟨a, b, rfl⟩
          have hih := pathLookup_insertLevels_measures mf n row rest
          simp only [List.take, fieldKeys, List.map_cons]
          rw [show List.map (fun q => keyOf (cellAt row q.2.index)) (rest.take (j2+1)) =
              fieldKeys row (rest.take (j2+1)) from rfl, hks, pathLookup_cons_cons,
            pathLookup_cons_cons, lookupTree_updateTree_self]
          cases hl : lookupTree t (keyOf (cellAt row f.index)) with
          | none =>
              have h5 := hih Tree.nil j2 hj2 hnn2
              rw [hks] at h5
              simpa [TreeNode.children, pathLookup_nil] using h5
          | some nd =>
              cases nd with
              | mk nm lv msr ch hcb =>
                  have h5 := hih ch j2 hj2 hnn2
                  rw [hks] at h5
                  simpa [TreeNode.children] using h5

theorem fieldKeys_enumFields (row : List JSVal) : ∀ (hf : List Field) (i : Nat),
    fieldKeys row (enumFields i hf) = hf.map (fun f => keyOf (cellAt row f.index))
  | [], _ => rfl
  | f :: fs, i => by
      have ih := fieldKeys_enumFields row fs (i+1)
      simp only [fieldKeys] at ih
      simp only [enumFields, fieldKeys, List.map_cons]
      rw [ih]

theorem fieldKeys_take (row : List JSVal) (fields : List (Nat × Field)) (n2 : Nat) :
    fieldKeys row (fields.take n2) = (fieldKeys row fields).take n2 := by
  simp [fieldKeys, List.map_take]

theorem enumFields_mem : ∀ (hf : List Field) (i : Nat) (q : Nat × Field),
    q ∈ enumFields i hf → q.2 ∈ hf
  | [], i, q, h => by simp [enumFields] at h
  | f :: fs, i, q, h => by
      rcases (by simpa [enumFields] using h : q = (i, f) ∨ q ∈ enumFields (i+1) fs)
        with h1 | h1
      · simp [h1]
      · simp [enumFields_mem fs (i+1) q h1]

theorem fieldKeys_congr (r1 r2 : List JSVal) : ∀ (fields : List (Nat × Field)),
    (∀ q ∈ fields, cellAt r1 q.2.index = cellAt r2 q.2.index) →
    fieldKeys r1 fields = fieldKeys r2 fields
  | [], _ => rfl
  | q :: qs, h => by
      have h1 := h q (by simp)
      have h2 := fieldKeys_congr r1 r2 qs (fun p hp => h p (by simp [hp]))
      simp only [fieldKeys, List.map_cons] at h2 ⊢
      rw [h1, h2]

/-- C5: for two rows sharing the same full (non-null) hierarchy path,
every node on that path ends up holding, for each measure, the later
row's value when that value is non-missing, the earlier row's value when
the later is missing but the earlier is not, and no entry when both are
missing — i.e. last write wins and null/undefined measure cells are
skipped, leaving the prior entry untouched. -/
theorem C5_last_write_wins (hf mf : List Field) (r1 r2 : List JSVal) (m : Field) (j : Nat)
    (hnodup : (mf.map Field.fieldName).Nodup) (hm : m ∈ mf)
    (hcells : ∀ f ∈ hf, isNullValue (cellAt r1 f.index) = false ∧
      cellAt r1 f.index = cellAt r2 f.index)
    (hj : j < hf.length) :
    (pathLookup (buildHierarchicalTree hf mf [r1, r2])
        ((hf.map (fun f => keyOf (cellAt r1 f.index))).take (j+1))).map
        (fun nd => lookupMeasure nd.measures m.fieldName) =
      some (if isMissing (cellAt r2 m.index) = true then
              (if isMissing (cellAt r1 m.index) = true then none
               else some (cellAt r1 m.index))
            else some (cellAt r2 m.index)) := by
  have hj2 : j < (enumFields 0 hf).length := by rw [enumFields_length]; exact hj
  have hnn1 : ∀ q ∈ enumFields 0 hf, isNullValue (cellAt r1 q.2.index) = false :=
    fun q hq => (hcells q.2 (enumFields_mem hf 0 q hq)).1
  have hnn2 : ∀ q ∈ enumFields 0 hf, isNullValue (cellAt r2 q.2.index) = false :=
    fun q hq => (hcells q.2 (enumFields_mem hf 0 q hq)).2 ▸
      (hcells q.2 (enumFields_mem hf 0 q hq)).1
  have hkr : fieldKeys r2 ((enumFields 0 hf).take (j+1)) =
      fieldKeys r1 ((enumFields 0 hf).take (j+1)) := by
    refine fieldKeys_congr r2 r1 _ (fun q hq => ?_)
    exact ((hcells q.2 (enumFields_mem hf 0 q (List.mem_of_mem_take hq))).2).symm
  have hP1 := pathLookup_insertLevels_measures mf hf.length r1 (enumFields 0 hf)
    Tree.nil j hj2 hnn1
  have hP2 := pathLookup_insertLevels_measures mf hf.length r2 (enumFields 0 hf)
    (insertLevels mf hf.length r1 Tree.nil (enumFields 0 hf)) j hj2 hnn2
  rw [hkr] at hP2
  rw [pathLookup_nil] at hP1
  simp only [Option.map_none', Option.getD_none] at hP1
  rw [hP1] at hP2
  simp only [Option.getD_some] at hP2
  obtain ⟨nd, hnd, hmeas⟩ := Option.map_eq_some'.mp hP2
  have hpath : fieldKeys r1 ((enumFields 0 hf).take (j+1)) =
      (hf.map (fun f => keyOf (cellAt r1 f.index))).take (j+1) := by
    rw [fieldKeys_take, fieldKeys_enumFields]
  have hbuild : buildHierarchicalTree hf mf [r1, r2] =
      insertLevels mf hf.length r2
        (insertLevels mf hf.length r1 Tree.nil (enumFields 0 hf)) (enumFields 0 hf) := rfl
  rw [hbuild, ← hpath, hnd]
  simp only [Option.map_some']
  rw [hmeas, lookupMeasure_writeMeasures r2 mf _ m hnodup hm]
  by_cases hmiss2 : isMissing (cellAt r2 m.index) = true
  · rw [if_pos hmiss2, if_pos hmiss2,
      lookupMeasure_writeMeasures r1 mf [] m hnodup hm]
    by_cases hmiss1 : isMissing (cellAt r1 m.index) = true
    · rw [if_pos hmiss1, if_pos hmiss1]
      rfl
    · rw [if_neg hmiss1, if_neg hmiss1]
  · rw [if_neg hmiss2, if_neg hmiss2]

/-- C5 witness: with one hierarchy field and one measure, two rows on
the path A with values 1 then 2 leave 2 at the node. -/
theorem C5_witness :
    (pathLookup (buildHierarchicalTree [Field.mk 0 "c"] [Field.mk 1 "sales"]
        [[JSVal.str "A", JSVal.num 1], [JSVal.str "A", JSVal.num 2]])
        ((([Field.mk 0 "c"]).map (fun f =>
          keyOf (cellAt [JSVal.str "A", JSVal.num 1] f.index))).take 1)).map
        (fun nd => lookupMeasure nd.measures "sales") =
      some (some (JSVal.num 2)) :=
  C5_last_write_wins [Field.mk 0 "c"] [Field.mk 1 "sales"]
    [JSVal.str "A", JSVal.num 1] [JSVal.str "A", JSVal.num 2] (Field.mk 1 "sales") 0
    (by decide) (by decide) (by decide) (by decide)

/-! Frame property (claim C10): a node's identity fields never change
after creation. -/

theorem pathLookup_singleton (t : Tree) (k : String) :
    pathLookup t [k] = lookupTree t k := rfl

theorem pathLookup_insertLevels_frame (mf : List Field) (n : Nat) (row : List JSVal) :
    ∀ (fields : List (Nat × Field)) (t : Tree) (p : List String) (nd : TreeNode),
      pathLookup t p = some nd →
      ∃ nd2, pathLookup (insertLevels mf n row t fields) p = some nd2 ∧
        nd2.name = nd.name ∧ nd2.level = nd.level ∧ nd2.hasChildren = nd.hasChildren
  | [], t, p, nd, h => ⟨nd, h, rfl, rfl, rfl⟩
  | (l, f) :: rest, t, p, nd, h => by
      simp only [insertLevels]
      by_cases hnull : isNullValue (cellAt row f.index) = true
      · rw [if_pos hnull]
        exact pathLookup_insertLevels_frame mf n row rest t p nd h
      · rw [if_neg hnull]
        cases p with
        | nil => simp [pathLookup] at h
        | cons p1 ps =>
          by_cases hp1 : p1 = keyOf (cellAt row f.index)
          · subst hp1
            cases hl : lookupTree t (keyOf (cellAt row f.index)) with
            | none =>
                cases ps with
                | nil =>
                    rw [pathLookup_singleton, hl] at h
                    simp at h
                | cons p2 ps2 =>
                    rw [pathLookup_cons_cons, hl] at h
                    simp at h
            | some nd0 =>
                cases nd0 with
                | mk nm0 lv0 ms0 ch0 hc0 =>
                  cases ps with
                  | nil =>
                      rw [pathLookup_singleton, hl] at h
                      injection h with h
                      subst h
                      simp only [hl]
                      refine ⟨TreeNode.mk nm0 lv0 (writeMeasures row mf ms0)
                        (insertLevels mf n row ch0 rest) hc0, ?_, rfl, rfl, rfl⟩
                      rw [pathLookup_singleton]
                      exact lookupTree_updateTree_self t (keyOf (cellAt row f.index)) _
                  | cons p2 ps2 =>
                      rw [pathLookup_cons_cons, hl] at h
                      simp only [Option.some_bind, TreeNode.children] at h
                      obtain ⟨nd2, h2, hprops⟩ :=
                        pathLookup_insertLevels_frame mf n row rest ch0 (p2 :: ps2) nd h
                      refine ⟨nd2, ?_, hprops⟩
                      simp only [hl]
                      rw [pathLookup_cons_cons, lookupTree_updateTree_self]
                      simpa [TreeNode.children] using h2
          · cases ps with
            | nil =>
                refine ⟨nd, ?_, rfl, rfl, rfl⟩
                rw [pathLookup_singleton,
                  lookupTree_updateTree_ne t (keyOf (cellAt row f.index)) p1 _ hp1]
                exact h
            | cons p2 ps2 =>
                refine ⟨nd, ?_, rfl, rfl, rfl⟩
                rw [pathLookup_cons_cons,
                  lookupTree_updateTree_ne t (keyOf (cellAt row f.index)) p1 _ hp1,
                  ← pathLookup_cons_cons]
                exact h

theorem pathLookup_foldl_frame (hf mf : List Field) :
    ∀ (rows : List (List JSVal)) (t : Tree) (p : List String) (nd : TreeNode),
      pathLookup t p = some nd →
      ∃ nd2, pathLookup (rows.foldl (fun tree row =>
          insertLevels mf hf.length row tree (enumFields 0 hf)) t) p = some nd2 ∧
        nd2.name = nd.name ∧ nd2.level = nd.level ∧ nd2.hasChildren = nd.hasChildren
  | [], t, p, nd, h => ⟨nd, h, rfl, rfl, rfl⟩
  | r :: rs, t, p, nd, h => by
      obtain ⟨nd1, h1, ha, hb, hc⟩ :=
        pathLookup_insertLevels_frame mf hf.length r (enumFields 0 hf) t p nd h
      obtain ⟨nd2, h2, hd, he, hg⟩ := pathLookup_foldl_frame hf mf rs _ p nd1 h1
      exact ⟨nd2, by rw [List.foldl_cons]; exact h2,
        by rw [hd, ha], by rw [he, hb], by rw [hg, hc]⟩

/-- C10: once a node exists at a path, processing further rows keeps a
node at that path and never changes its `name`, `level` or
`hasChildren` fields — later rows can only rewrite measures and grow the
children map (in particular `hasChildren` keeps its creation value even
if children are later added under a node created at leaf level). -/
theorem C10_node_fields_frozen (hf mf : List Field) (rows extra : List (List JSVal))
    (p : List String) (nd : TreeNode)
    (h : pathLookup (buildHierarchicalTree hf mf rows) p = some nd) :
    ∃ nd2, pathLookup (buildHierarchicalTree hf mf (rows ++ extra)) p = some nd2 ∧
      nd2.name = nd.name ∧ nd2.level = nd.level ∧ nd2.hasChildren = nd.hasChildren := by
  have hb : buildHierarchicalTree hf mf (rows ++ extra) =
      extra.foldl (fun tree row => insertLevels mf hf.length row tree (enumFields 0 hf))
        (buildHierarchicalTree hf mf rows) := by
    simp [buildHierarchicalTree, List.foldl_append]
  rw [hb]
  exact pathLookup_foldl_frame hf mf extra _ p nd h

/-- C10 witness: node A (level 0, hasChildren true) created by the first
row keeps those fields after a second row adds the child C under it. -/
theorem C10_witness :
    ∃ nd2, pathLookup (buildHierarchicalTree hfFF mfM
        ([[JSVal.str "A", JSVal.str "B", JSVal.num 1]] ++
         [[JSVal.str "A", JSVal.str "C", JSVal.num 2]])) ["A"] = some nd2 ∧
      nd2.name = "A" ∧ nd2.level = 0 ∧ nd2.hasChildren = true :=
  C10_node_fields_frozen hfFF mfM [[JSVal.str "A", JSVal.str "B", JSVal.num 1]]
    [[JSVal.str "A", JSVal.str "C", JSVal.num 2]] ["A"]
    (TreeNode.mk "A" 0 [("m", JSVal.num 1)]
      (Tree.cons "B" (TreeNode.mk "B" 1 [("m", JSVal.num 1)] Tree.nil false) Tree.nil) true)
    rfl

/-- C4 (amended): the end-to-end example yields exactly two level-0
nodes, CA (sales 30, one child) and US (sales 50, overwritten from 100,
two children), and projecting after expanding US yields the rows CA, US,
US|CA, US|TX in that order. -/
theorem C4_amended_end_to_end :
    treeLength treeUS = 2 ∧
    (lookupTree treeUS "CA").map
      (fun nd => (nd.level, lookupMeasure nd.measures "sales", treeLength nd.children)) =
      some (0, some (JSVal.num 30), 1) ∧
    (lookupTree treeUS "US").map
      (fun nd => (nd.level, lookupMeasure nd.measures "sales", treeLength nd.children)) =
      some (0, some (JSVal.num 50), 2) ∧
    (renderTreeLevel (toggleNode [] ["US"]) treeUS [] 0 []).map RenderedRow.pathKey =
      ["CA", "US", "US|CA", "US|TX"] := by decide

end Crosstab
